import Mathlib

/-!
# Verification of the hover-docs declaration-resolution core

Shallow embedding of `src/extension.ts` (the hover-docs VS Code extension).
Documents are lists of lines; a line is a `List Char`.  The JavaScript
regular expressions used by the extension are embedded as backtracking
list-of-successes parsers whose alternative order mirrors the JS engine's
leftmost / greedy priority, so that the first success corresponds to the
match (and capture groups) the JS engine produces.

External collaborators (the editor word-range tokenizer, the workspace
file index `findFiles`, and `openTextDocument`) are modelled as an
environment record; `findFiles` is modelled per its documented contract
(name filtering, `**/node_modules/**` exclusion, result cap).
-/

namespace HoverDocs

/-- JS `\w`: ASCII word characters `[A-Za-z0-9_]`. -/
def isWordChar (c : Char) : Bool :=
  ('a' ≤ c && c ≤ 'z') || ('A' ≤ c && c ≤ 'Z') || ('0' ≤ c && c ≤ '9') || c = '_'

/-- JS `\s` (restricted to the ASCII whitespace characters that can occur in
document lines): space, tab, newline, carriage return, vertical tab, form feed. -/
def jsSpace (c : Char) : Bool :=
  c = ' ' || c = '\t' || c = '\n' || c = '\r' || c = '\x0b' || c = '\x0c'

/-- The character class `[\w\*&<>:]` of the type token in
`VARIABLE_DEFINITION_REGEX` (and `LIKELY_DEFINITION_REGEX`). -/
def typeChar (c : Char) : Bool :=
  isWordChar c || c = '*' || c = '&' || c = '<' || c = '>' || c = ':'

/-- JS `.` (dot): any character except a line terminator. -/
def dotChar (c : Char) : Bool := c ≠ '\n' && c ≠ '\r'

/-- Models `String.prototype.trim`: drop leading and trailing whitespace. -/
def trimChars (l : List Char) : List Char :=
  ((l.dropWhile jsSpace).reverse.dropWhile jsSpace).reverse

/-- Does `pat` occur as a prefix of `s`? -/
def listStartsWith (pat s : List Char) : Bool :=
  match pat, s with
  | [], _ => true
  | _ :: _, [] => false
  | p :: ps, c :: cs => p = c && listStartsWith ps cs

/-- Does `pat` occur as a suffix of `s`? -/
def listEndsWith (pat s : List Char) : Bool :=
  listStartsWith pat.reverse s.reverse

/-! ## List-of-successes parsers

`Pr α` sends an input to the list of all `(value, rest)` results, ordered by
the JS regex engine's backtracking priority (greedy quantifiers produce the
longest alternative first, `?` tries the present branch first, alternations
are tried left to right).  A whole-regex match exists iff the result list is
nonempty, and the head result carries the capture groups JS reports. -/

abbrev Pr (α : Type) : Type := List Char → List (α × List Char)

def pureP {α : Type} (a : α) : Pr α := fun s => [(a, s)]

def bindP {α β : Type} (p : Pr α) (q : α → Pr β) : Pr β :=
  fun s => (p s).flatMap (fun ar => q ar.1 ar.2)

def failP {α : Type} : Pr α := fun _ => []

/-- Single literal character. -/
def charP (c : Char) : Pr Unit := fun s =>
  match s with
  | [] => []
  | c' :: r => if c' = c then [((), r)] else []

/-- A single character drawn from a class (used for `[<"]` and `[>"]`). -/
def classP (f : Char → Bool) : Pr Char := fun s =>
  match s with
  | [] => []
  | c :: r => if f c then [(c, r)] else []

/-- Literal string. -/
def litP (lit : List Char) : Pr Unit := fun s =>
  if listStartsWith lit s then [((), s.drop lit.length)] else []

/-- All splits `(t, r)` of `s` with `t ++ r = s` and every character of `t`
satisfying `f`, longest `t` first — the greedy alternatives of `[class]*`. -/
def runSplits (f : Char → Bool) : List Char → List (List Char × List Char)
  | [] => [([], [])]
  | c :: cs =>
    if f c then (runSplits f cs).map (fun tr => (c :: tr.1, tr.2)) ++ [([], c :: cs)]
    else [([], c :: cs)]

/-- Greedy `[class]*`. -/
def starClass (f : Char → Bool) : Pr (List Char) := fun s => runSplits f s

/-- Greedy `[class]+`. -/
def plusClass (f : Char → Bool) : Pr (List Char) := fun s =>
  match s with
  | [] => []
  | c :: cs =>
    if f c then (runSplits f cs).map (fun tr => (c :: tr.1, tr.2)) else []

/-- Greedy `(...)?`: the present branch first, then the empty branch. -/
def optP {α : Type} (p : Pr α) : Pr (Option α) := fun s =>
  ((p s).map (fun ar => (some ar.1, ar.2))) ++ [(none, s)]

/-- Greedy `(...)*` with an iteration budget.  Every starred unit in the
embedded regexes consumes at least one character on success, so a budget of
`s.length` at the call site never cuts off a JS-reachable alternative. -/
def starHelp {α : Type} (p : Pr α) : Nat → Pr (List α)
  | 0 => pureP []
  | n + 1 => fun s =>
    ((p s).flatMap (fun ar =>
      (starHelp p n ar.2).map (fun br => (ar.1 :: br.1, br.2)))) ++ [([], s)]

def starP {α : Type} (p : Pr α) : Pr (List α) := fun s => starHelp p s.length s

/-- End-of-input anchor `$`. -/
def endP : Pr Unit := fun s => if s = [] then [((), [])] else []

/-! ## The three regexes of `extension.ts` -/

/-- The qualifier keywords of `VARIABLE_DEFINITION_REGEX`, in alternation order. -/
def qualKeywords : List (List Char) :=
  ["const".toList, "static".toList, "volatile".toList, "unsigned".toList,
   "signed".toList, "long".toList, "short".toList, "struct".toList,
   "enum".toList, "class".toList, "typename".toList]

/-- One iteration of `(?:(?:const|static|...)\s+)`. -/
def qualUnit : Pr (List Char) := fun s =>
  qualKeywords.flatMap (fun kw =>
    (bindP (litP kw) (fun _ =>
      bindP (plusClass jsSpace) (fun ws =>
        pureP (kw ++ ws)))) s)

/-- Embeds `(?:\s*<[^>]*>)` — the simple-template part of the type token. -/
def templUnit : Pr (List Char) :=
  bindP (starClass jsSpace) (fun ws =>
    bindP (charP '<') (fun _ =>
      bindP (starClass (fun c => c ≠ '>')) (fun inner =>
        bindP (charP '>') (fun _ =>
          pureP (ws ++ '<' :: inner ++ ['>'])))))

/-- Embeds `(?:\s*\*)` — one trailing pointer star of the type token. -/
def ptrUnit : Pr (List Char) :=
  bindP (starClass jsSpace) (fun ws =>
    bindP (charP '*') (fun _ =>
      pureP (ws ++ ['*'])))

/-- Embeds `(\s*\[[^\]]*\])` — the optional array-brackets group (group 3). -/
def bracketUnit : Pr (List Char) :=
  bindP (starClass jsSpace) (fun ws =>
    bindP (charP '[') (fun _ =>
      bindP (starClass (fun c => c ≠ ']')) (fun inner =>
        bindP (charP ']') (fun _ =>
          pureP (ws ++ '[' :: inner ++ [']'])))))

/-- Embeds `(?:=[^;]+)` — the discarded initializer. -/
def initUnit : Pr (List Char) :=
  bindP (charP '=') (fun _ =>
    bindP (plusClass (fun c => c ≠ ';')) (fun body =>
      pureP ('=' :: body)))

/-- Embeds `(?:\s*\/\/\s*(.*))` — the optional line-comment tail; the value is the
content capture (group 4). -/
def commentUnit : Pr (List Char) :=
  bindP (starClass jsSpace) (fun _ =>
    bindP (litP ['/', '/']) (fun _ =>
      bindP (starClass jsSpace) (fun _ =>
        bindP (starClass dotChar) (fun content =>
          pureP content))))

/-- Capture groups of a successful `VARIABLE_DEFINITION_REGEX` match:
group 1 (type), group 3 (array brackets), group 4 (line-comment content).
Group 2 is always the searched identifier itself. -/
structure VarDefMatch where
  g1 : List Char
  g3 : Option (List Char)
  g4 : Option (List Char)
deriving DecidableEq, Repr

/-- The whole `VARIABLE_DEFINITION_REGEX(varName)` pattern, anchored at both ends. -/
def varDefP (varName : List Char) : Pr VarDefMatch :=
  bindP (starClass jsSpace) (fun _ =>
    bindP (starP qualUnit) (fun _ =>
      bindP (plusClass typeChar) (fun t1 =>
        bindP (optP templUnit) (fun tpl =>
          bindP (starP ptrUnit) (fun stars =>
            bindP (plusClass jsSpace) (fun _ =>
              bindP (litP varName) (fun _ =>
                bindP (optP bracketUnit) (fun g3 =>
                  bindP (starClass jsSpace) (fun _ =>
                    bindP (optP initUnit) (fun _ =>
                      bindP (starClass jsSpace) (fun _ =>
                        bindP (charP ';') (fun _ =>
                          bindP (optP commentUnit) (fun g4 =>
                            bindP (starClass jsSpace) (fun _ =>
                              bindP endP (fun _ =>
                                pureP ⟨t1 ++ tpl.getD [] ++ stars.flatten, g3, g4⟩)))))))))))))))

/-- Models `lineText.match(VARIABLE_DEFINITION_REGEX(varName))`, reduced to the
capture groups the code reads. -/
def jsMatchVarDef (varName line : List Char) : Option VarDefMatch :=
  ((varDefP varName) line).head?.map (fun ar => ar.1)

/-- Embeds `LIKELY_DEFINITION_REGEX` (anchored only at the start; `.test` just asks
for the existence of a match). -/
def likelyP : Pr Unit :=
  bindP (starClass jsSpace) (fun _ =>
    bindP (starP qualUnit) (fun _ =>
      bindP (plusClass typeChar) (fun _ =>
        bindP (optP templUnit) (fun _ =>
          bindP (starP ptrUnit) (fun _ =>
            bindP (plusClass jsSpace) (fun _ =>
              bindP (plusClass isWordChar) (fun _ =>
                bindP (optP bracketUnit) (fun _ =>
                  bindP (starClass jsSpace) (fun _ =>
                    bindP (optP (bindP (charP '=') (fun _ =>
                        bindP (starClass dotChar) (fun _ => pureP ())))) (fun _ =>
                      bindP (charP ';') (fun _ =>
                        pureP ())))))))))))

/-- Models `LIKELY_DEFINITION_REGEX.test(s)`. -/
def likelyDefTest (s : List Char) : Bool := !((likelyP s).isEmpty)

/-- Models `BLOCK_COMMENT_START_REGEX.test(s)` — `/^\s*\/\*/`. -/
def blockStartTest (s : List Char) : Bool :=
  listStartsWith ['/', '*'] (s.dropWhile jsSpace)

/-- Models `BLOCK_COMMENT_END_REGEX.test(s)` — `/\*\/$/`. -/
def blockEndTest (s : List Char) : Bool := listEndsWith ['*', '/'] s

/-- Embeds `^\s*#include\s+[<"]([^>"]+)[>"].*$`; the value is the captured path. -/
def includeP : Pr (List Char) :=
  bindP (starClass jsSpace) (fun _ =>
    bindP (litP "#include".toList) (fun _ =>
      bindP (plusClass jsSpace) (fun _ =>
        bindP (classP (fun c => c = '<' || c = '"')) (fun _ =>
          bindP (plusClass (fun c => c ≠ '>' && c ≠ '"')) (fun p =>
            bindP (classP (fun c => c = '>' || c = '"')) (fun _ =>
              bindP (starClass dotChar) (fun _ =>
                bindP endP (fun _ =>
                  pureP p))))))))

/-- Models `line.match(includeRegex)`, reduced to the group-1 capture. -/
def jsMatchInclude (line : List Char) : Option (List Char) :=
  ((includeP) line).head?.map (fun ar => ar.1)

/-! ## Constants -/

def MAX_LINES_TO_SCAN_UP : Nat := 100
def MAX_BLOCK_COMMENT_LINES : Nat := 50
def MAX_FILES_TO_SEARCH : Nat := 20

/-! ## `cleanBlockComment` -/

/-- Models `replace(/^\/\*+/, '')`: strip a leading `/*` run (a `/` followed by one
or more `*`), if present. -/
def stripLeadSlashStars (l : List Char) : List Char :=
  match l with
  | '/' :: '*' :: rest => rest.dropWhile (fun c => c = '*')
  | _ => l

/-- Models `replace(/\*+\/$/, '')`: strip a trailing run of `*`s followed by `/`,
if the line ends that way. -/
def stripTrailStarsSlash (l : List Char) : List Char :=
  match l.reverse with
  | '/' :: '*' :: rest => (rest.dropWhile (fun c => c = '*')).reverse
  | _ => l

/-- Models `replace(/^\s*\*/, '')`: strip leading whitespace together with a single
`*`, when the first non-whitespace character is a `*`; otherwise unchanged. -/
def stripLeadWsStar (l : List Char) : List Char :=
  match l.dropWhile jsSpace with
  | '*' :: rest => rest
  | _ => l

/-- Per-line cleaning step of `cleanBlockComment` (`n` is the number of lines,
`idx` the 0-based position of this line). -/
def cleanOne (n idx : Nat) (line : List Char) : List Char :=
  let c1 := trimChars line
  let c2 := if idx = 0 then stripLeadSlashStars c1 else c1
  let c3 := if idx = n - 1 then stripTrailStarsSlash c2 else c2
  trimChars (stripLeadWsStar c3)

/-- Embeds `cleanBlockComment`: clean every line, drop the ones that became empty,
join the survivors with newlines. -/
def cleanBlockComment (lines : List (List Char)) : List Char :=
  if lines.isEmpty then []
  else
    List.intercalate ['\n']
      (((lines.enum).map (fun p => cleanOne lines.length p.1 p.2)).filter
        (fun l => !l.isEmpty))

/-! ## Documents and the definition scan -/

/-- Models `document.lineAt(i).text` (total model: out-of-range reads give the empty
line, which never matches any of the embedded regexes). -/
def lineAtD (doc : List (List Char)) (i : Nat) : List Char := (doc[i]?).getD []

/-- Capture groups, column range and type/comment data extracted from one
matched line (everything of `findDefinitionInDocument`'s result except the
line number). -/
structure LineHit where
  varType : List Char
  lineComment : Option (List Char)
  colStart : Nat
  colEnd : Nat
deriving DecidableEq, Repr

structure DefInfo where
  lineNum : Nat
  hit : LineHit
deriving DecidableEq, Repr

/-- Computes, as `idxSearch pat s i`, the smallest `j ≥ i` (offset into the original string)
at which `pat` occurs in `s` viewed as starting at index `i`. -/
def idxSearch (pat : List Char) : List Char → Nat → Option Nat
  | [], i => if listStartsWith pat [] then some i else none
  | c :: r, i =>
    if listStartsWith pat (c :: r) then some i else idxSearch pat r (i + 1)

/-- Models `String.prototype.indexOf(pat, start)` restricted to nonnegative start. -/
def jsIndexOfFromNat (s pat : List Char) (start : Nat) : Option Nat :=
  idxSearch pat (s.drop start) start

/-- Models `String.prototype.indexOf(pat)`: first index or `-1`. -/
def jsIndexOf (s pat : List Char) : Int :=
  match jsIndexOfFromNat s pat 0 with
  | some i => (i : Int)
  | none => -1

/-- The per-line body of `findDefinitionInDocument`'s loop: regex match,
then the `indexOf`-based column-range computation (a line whose
`nameStartIndex` computation fails is skipped, mirroring the `!== -1` test). -/
def matchLine (hoveredWord lineText : List Char) : Option LineHit :=
  match jsMatchVarDef hoveredWord lineText with
  | none => none
  | some m =>
    let typeInMatch := trimChars m.g1
    let fromIdx : Int :=
      if 0 < typeInMatch.length then jsIndexOf lineText typeInMatch + typeInMatch.length
      else 0
    match jsIndexOfFromNat lineText hoveredWord fromIdx.toNat with
    | none => none
    | some nameStart =>
      some ⟨typeInMatch ++ m.g3.getD [], m.g4.map trimChars,
            nameStart, nameStart + hoveredWord.length⟩

/-- The ascending `for (lineIdx = ...; lineIdx <= endLine; lineIdx++)` loop of
`findDefinitionInDocument`, starting at `lineIdx`.  The structural `fuel`
argument counts the remaining iterations; it is called with exactly
`endLine + 1 - lineIdx`, so it reaches `0` only when `endLine < lineIdx`
holds as well and the loop would exit anyway. -/
def findDefFrom (doc : List (List Char)) (w : List Char) (cancelled : Bool)
    (endLine : Nat) : Nat → Nat → Option DefInfo
  | _, 0 => none
  | lineIdx, fuel + 1 =>
    if endLine < lineIdx then none
    else if cancelled then none
    else
      match matchLine w (lineAtD doc lineIdx) with
      | some hit => some ⟨lineIdx, hit⟩
      | none => findDefFrom doc w cancelled endLine (lineIdx + 1) fuel

/-- Embeds `findDefinitionInDocument(document, hoveredWord, token, startLine, endLine)`. -/
def findDefinitionInDocument (doc : List (List Char)) (w : List Char)
    (cancelled : Bool) (startLine endLine : Nat) : Option DefInfo :=
  findDefFrom doc w cancelled endLine startLine (endLine + 1 - startLine)

/-! ## `findBlockComment` -/

/-- The `while (currentCommentLine >= 0 && searchLines < MAX_BLOCK_COMMENT_LINES)`
walk of `findBlockComment`: collect lines upward from `cur` (at most
`remaining` of them) until one's trimmed text starts a block comment. -/
def scanForStart (doc : List (List Char)) (cancelled : Bool) :
    Nat → Nat → List (List Char) → Option (List Char)
  | _, 0, _ => none
  | cur, remaining + 1, acc =>
    if cancelled then none
    else
      let line := lineAtD doc cur
      let acc2 := line :: acc
      if blockStartTest (trimChars line) then some (cleanBlockComment acc2)
      else if cur = 0 then none
      else scanForStart doc cancelled (cur - 1) remaining acc2

/-- Embeds `findBlockComment(document, definitionLineNum, token)`. -/
def findBlockComment (doc : List (List Char)) (definitionLineNum : Nat)
    (cancelled : Bool) : Option (List Char) :=
  let isFirstInSequence :=
    if 0 < definitionLineNum then
      !(likelyDefTest (trimChars (lineAtD doc (definitionLineNum - 1))))
    else true
  if !isFirstInSequence || definitionLineNum = 0 then none
  else
    let endLineNum := definitionLineNum - 1
    let endText := trimChars (lineAtD doc endLineNum)
    if blockEndTest endText then
      scanForStart doc cancelled endLineNum MAX_BLOCK_COMMENT_LINES []
    else none

/-! ## Workspace environment and cross-file search

The editor/workspace collaborators (word-range tokenizer at the hover
position, workspace file index, document opening) are modelled as an
environment record; `findFiles` is modelled per its documented contract:
filter the workspace file list by the glob, exclude `**/node_modules/**`,
cap the result count. -/

/-- Split a path on `/` separators. -/
def splitPath (p : List Char) : List (List Char) := p.splitOn '/'

/-- Models `path.basename`: last path component. -/
def baseName (p : List Char) : List Char := ((splitPath p).getLast?).getD []

/-- Does the glob `**/node_modules/**` exclude this path (a `node_modules`
directory component)? -/
def inNodeModules (p : List Char) : Bool :=
  ((splitPath p).dropLast).any (fun comp => comp == "node_modules".toList)

/-- Does the path match the glob `**/*.{h,hpp}`? -/
def isHeaderPath (p : List Char) : Bool :=
  listEndsWith ".h".toList p || listEndsWith ".hpp".toList p

structure Env where
  hasWorkspaceFolder : Bool
  wordRangeAt : Nat → Option (Nat × Nat)
  workspace : List (List Char)
  openDoc : List Char → Except (List Char) (List (List Char))
  activePath : List Char

/-- Models `vscode.workspace.findFiles(`**/${fileName}`, '**/node_modules/**',
MAX_FILES_TO_SEARCH)`, modelled over the workspace file list. -/
def findFilesByName (env : Env) (name : List Char) : List (List Char) :=
  (env.workspace.filter
    (fun p => baseName p == name && !inNodeModules p)).take MAX_FILES_TO_SEARCH

/-- Models `vscode.workspace.findFiles('**/*.{h,hpp}', '**/node_modules/**',
MAX_FILES_TO_SEARCH)`, modelled over the workspace file list. -/
def findHeaderFilesW (env : Env) : List (List Char) :=
  (env.workspace.filter
    (fun p => isHeaderPath p && !inNodeModules p)).take MAX_FILES_TO_SEARCH

/-- Embeds `findIncludedFiles(document)`: the captured `#include` paths, in document
order ( `[]` without a workspace folder). -/
def findIncludedFiles (env : Env) (doc : List (List Char)) : List (List Char) :=
  if !env.hasWorkspaceFolder then []
  else doc.filterMap jsMatchInclude

/-- Embeds `findPotentialHeaderFiles(document, hoveredWord)`: name-query results for
every include's base filename, then every workspace header file not already
present (the growing-array push loop is a fold). -/
def findPotentialHeaderFiles (env : Env) (doc : List (List Char)) :
    List (List Char) :=
  if !env.hasWorkspaceFolder then []
  else
    let includedFiles := findIncludedFiles env doc
    let potentialFiles := includedFiles.foldl
      (fun acc includeFile => acc ++ findFilesByName env (baseName includeFile)) []
    let headerFiles := findHeaderFilesW env
    headerFiles.foldl
      (fun acc headerFile =>
        if acc.contains headerFile then acc else acc ++ [headerFile])
      potentialFiles

/-- The candidate loop of `provideHover`: open each candidate (an open failure
is caught and the candidate skipped), run the full-document scan, stop at the
first success. -/
def searchCandidates (env : Env) (w : List Char) (cancelled : Bool) :
    List (List Char) → Option (List Char × List (List Char) × DefInfo)
  | [] => none
  | f :: rest =>
    if cancelled then none
    else
      match env.openDoc f with
      | .error _ => searchCandidates env w cancelled rest
      | .ok hdoc =>
        match findDefinitionInDocument hdoc w cancelled 0 (hdoc.length - 1) with
        | some d => some (f, hdoc, d)
        | none => searchCandidates env w cancelled rest

/-- The tooltip payload, one field per markdown section the code emits
(a field is `none`/empty exactly when the corresponding section is absent). -/
structure HoverPayload where
  sourceNote : Option (List Char)
  blockComment : Option (List Char)
  varType : List Char
  lineComment : Option (List Char)
  rangeLine : Nat
  rangeStart : Nat
  rangeEnd : Nat
deriving DecidableEq, Repr

/-- Embeds `provideHover(document, position, token)`. -/
def provideHover (env : Env) (doc : List (List Char)) (posLine : Nat)
    (cancelled : Bool) : Option HoverPayload :=
  match env.wordRangeAt posLine with
  | none => none
  | some (s, e) =>
    let hoveredWord := ((lineAtD doc posLine).drop s).take (e - s)
    if hoveredWord.isEmpty || hoveredWord.all Char.isDigit then none
    else
      let localDef := findDefinitionInDocument doc hoveredWord cancelled
        (posLine - MAX_LINES_TO_SCAN_UP) posLine
      let resolved : Option (List Char × List (List Char) × DefInfo) :=
        match localDef with
        | some d => some (env.activePath, doc, d)
        | none =>
          searchCandidates env hoveredWord cancelled
            (findPotentialHeaderFiles env doc)
      match resolved with
      | none => none
      | some (srcPath, srcDoc, d) =>
        let blockComment := findBlockComment srcDoc d.lineNum cancelled
        let sourceNote : Option (List Char) :=
          if srcPath ≠ env.activePath then some srcPath else none
        let bcEmit : Option (List Char) :=
          match blockComment with
          | some c => if c.isEmpty then none else some c
          | none => none
        let lcEmit : Option (List Char) :=
          match d.hit.lineComment with
          | some c => if c.isEmpty then none else some c
          | none => none
        let contentAdded :=
          sourceNote.isSome || bcEmit.isSome || !d.hit.varType.isEmpty
        if contentAdded then
          some ⟨sourceNote, bcEmit, d.hit.varType,
                (if d.hit.varType.isEmpty then none else lcEmit),
                d.lineNum, d.hit.colStart, d.hit.colEnd⟩
        else none

/-! ## Claim-side descriptions (for the cross-file refinement claim C6)

These definitions follow the wording of the specification, to be compared
with the embedded code above. -/

/-- Modelled from the spec (§4.3 step 4): probe one candidate — open it
(failure yields nothing) and run the full-document scan. -/
def openAndMatch (env : Env) (w : List Char) (f : List Char) :
    Option (List Char × List (List Char) × DefInfo) :=
  match env.openDoc f with
  | .error _ => none
  | .ok d =>
    match findDefinitionInDocument d w false 0 (d.length - 1) with
    | some i => some (f, d, i)
    | none => none

/-- Append, in order, the elements of the second list not already seen
(deduplication by path, as the spec describes step 3 of §4.3). -/
def dedupAppend (seen : List (List Char)) : List (List Char) → List (List Char)
  | [] => []
  | h :: t => if seen.contains h then dedupAppend seen t else h :: dedupAppend (seen ++ [h]) t

/-- Modelled from the spec (§4.3 steps 1–3): candidate files are, first, the
capped vendor-excluded name-query results for each include's base filename,
then the capped vendor-excluded header sweep with already-present paths
dropped. -/
def candidateListSpec (env : Env) (doc : List (List Char)) : List (List Char) :=
  if !env.hasWorkspaceFolder then []
  else
    let fromIncludes := (findIncludedFiles env doc).flatMap
      (fun inc => findFilesByName env (baseName inc))
    fromIncludes ++ dedupAppend fromIncludes (findHeaderFilesW env)

/-- A parser consumes a prefix: every success splits the input. -/
def Consumes {α : Type} (p : Pr α) : Prop :=
  ∀ s a r, (a, r) ∈ p s → ∃ t, s = t ++ r

/-! ## Concrete environments used to instantiate the theorems -/

/-- A workspace with one unopenable candidate followed by an openable one. -/
def envC7 : Env where
  hasWorkspaceFolder := true
  wordRangeAt := fun _ => none
  workspace := []
  openDoc := fun p =>
    if p = "bad.h".toList then .error "io".toList
    else .ok ["int z;".toList]
  activePath := "main.c".toList

/-- A workspace containing a vendored copy of `foo.h`, a real `foo.h` and a
stray `.hpp`; only `inc/foo.h` can be opened. -/
def envC6 : Env where
  hasWorkspaceFolder := true
  wordRangeAt := fun l => if l = 1 then some (4, 5) else none
  workspace := ["node_modules/x/foo.h".toList, "inc/foo.h".toList,
                "src/util.hpp".toList]
  openDoc := fun p =>
    if p = "inc/foo.h".toList then
      .ok ["/* doc */".toList, "int y; // note".toList]
    else .error "io".toList
  activePath := "src/main.c".toList

/-- The active document of the cross-file scenario. -/
def docC6 : List (List Char) :=
  ["#include \x22foo.h\x22".toList, "use(y);".toList]

/-- An environment whose word range always selects columns 0–2. -/
def envC10 : Env where
  hasWorkspaceFolder := false
  wordRangeAt := fun _ => some (0, 2)
  workspace := []
  openDoc := fun _ => .error []
  activePath := []

/-! ## Soundness of the parser combinators

Each lemma says: a result in a parser's output list consumed a prefix of the
input with the shape the corresponding regex piece requires. -/

theorem listStartsWith_iff {pat s : List Char} :
    listStartsWith pat s = true ↔ ∃ r, s = pat ++ r := by
  induction pat generalizing s with
  | nil => simp [listStartsWith]
  | cons p ps ih =>
    cases s with
    | nil => simp [listStartsWith]
    | cons c cs =>
      simp only [listStartsWith, Bool.and_eq_true, decide_eq_true_eq, ih,
        List.cons_append, List.cons.injEq]
      constructor
      · rintro ⟨rfl, r, rfl⟩; exact ⟨r, rfl, rfl⟩
      · rintro ⟨r, rfl, rfl⟩; exact ⟨rfl, r, rfl⟩

theorem mem_bindP {α β : Type} {p : Pr α} {q : α → Pr β} {s : List Char}
    {br : β × List Char} :
    br ∈ bindP p q s ↔ ∃ a r1, (a, r1) ∈ p s ∧ br ∈ q a r1 := by
  simp only [bindP, List.mem_flatMap]
  constructor
  · rintro ⟨⟨a, r1⟩, h1, h2⟩; exact ⟨a, r1, h1, h2⟩
  · rintro ⟨a, r1, h1, h2⟩; exact ⟨⟨a, r1⟩, h1, h2⟩

theorem mem_pureP {α : Type} {a : α} {s : List Char} {br : α × List Char} :
    br ∈ pureP a s ↔ br = (a, s) := by
  simp [pureP]

theorem mem_charP {c : Char} {s r : List Char} {u : Unit}
    (h : (u, r) ∈ charP c s) : s = c :: r := by
  unfold charP at h
  cases s with
  | nil => simp at h
  | cons c' cs =>
    by_cases hc : c' = c
    · simp [hc] at h; simp [hc, h]
    · simp [hc] at h

theorem mem_classP {f : Char → Bool} {s r : List Char} {c : Char}
    (h : (c, r) ∈ classP f s) : s = c :: r ∧ f c = true := by
  unfold classP at h
  cases s with
  | nil => simp at h
  | cons c' cs =>
    by_cases hc : f c'
    · simp [hc] at h; obtain ⟨rfl, rfl⟩ := h; exact ⟨rfl, hc⟩
    · simp [hc] at h

theorem mem_litP {lit s r : List Char} {u : Unit}
    (h : (u, r) ∈ litP lit s) : s = lit ++ r := by
  unfold litP at h
  by_cases hp : listStartsWith lit s
  · simp [hp] at h
    obtain ⟨r0, rfl⟩ := listStartsWith_iff.mp hp
    simpa [List.drop_left] using congrArg (lit ++ ·) h.symm
  · simp [hp] at h

theorem mem_runSplits {f : Char → Bool} {s t r : List Char}
    (h : (t, r) ∈ runSplits f s) : s = t ++ r ∧ t.all f = true := by
  induction s generalizing t r with
  | nil => simp [runSplits] at h; simp [h.1, h.2]
  | cons c cs ih =>
    unfold runSplits at h
    by_cases hc : f c
    · simp only [hc, if_true, List.mem_append, List.mem_map, List.mem_singleton] at h
      rcases h with ⟨⟨t', r'⟩, hmem, heq⟩ | h
      · obtain ⟨h1, h2⟩ := ih hmem
        injection heq with he1 he2
        subst he1; subst he2
        exact ⟨by simp [h1], by simp [List.all_cons, hc, h2]⟩
      · injection h with he1 he2
        subst he1; subst he2
        simp
    · simp only [hc, Bool.false_eq_true, if_false, List.mem_singleton] at h
      injection h with he1 he2
      subst he1; subst he2
      simp

theorem mem_starClass {f : Char → Bool} {s t r : List Char}
    (h : (t, r) ∈ starClass f s) : s = t ++ r ∧ t.all f = true :=
  mem_runSplits h

theorem mem_plusClass {f : Char → Bool} {s t r : List Char}
    (h : (t, r) ∈ plusClass f s) : s = t ++ r ∧ t.all f = true ∧ t ≠ [] := by
  unfold plusClass at h
  cases s with
  | nil => simp at h
  | cons c cs =>
    by_cases hc : f c
    · simp only [hc, if_true, List.mem_map] at h
      rcases h with ⟨⟨t', r'⟩, hmem, heq⟩
      obtain ⟨h1, h2⟩ := mem_runSplits hmem
      cases heq
      refine ⟨by simp [h1], by simp [List.all_cons, hc, h2], by simp⟩
    · simp [hc] at h

theorem mem_optP {α : Type} {p : Pr α} {s : List Char} {x : Option α × List Char}
    (h : x ∈ optP p s) :
    x = (none, s) ∨ ∃ a r, x = (some a, r) ∧ (a, r) ∈ p s := by
  unfold optP at h
  simp only [List.mem_append, List.mem_map, List.mem_singleton] at h
  rcases h with ⟨⟨a, r⟩, hmem, heq⟩ | h
  · exact Or.inr ⟨a, r, heq.symm, hmem⟩
  · exact Or.inl h

theorem mem_endP {s r : List Char} {u : Unit}
    (h : (u, r) ∈ endP s) : s = [] ∧ r = [] := by
  unfold endP at h
  by_cases hs : s = []
  · simp [hs] at h; exact ⟨hs, h⟩
  · simp [hs] at h

theorem starHelp_consumes {α : Type} {p : Pr α} (hp : Consumes p) :
    ∀ n s as r, (as, r) ∈ starHelp p n s → ∃ t, s = t ++ r := by
  intro n
  induction n with
  | zero =>
    intro s as r h
    simp [starHelp, mem_pureP] at h
    exact ⟨[], by simp [h.2]⟩
  | succ n ih =>
    intro s as r h
    unfold starHelp at h
    simp only [List.mem_append, List.mem_flatMap, List.mem_map,
      List.mem_singleton] at h
    rcases h with ⟨⟨a, r1⟩, h1, ⟨⟨bs, r2⟩, h2, heq⟩⟩ | h
    · obtain ⟨t1, rfl⟩ := hp s a r1 h1
      obtain ⟨t2, rfl⟩ := ih r1 bs r2 h2
      cases heq
      exact ⟨t1 ++ t2, by simp⟩
    · cases h
      exact ⟨[], rfl⟩

theorem starP_consumes {α : Type} {p : Pr α} (hp : Consumes p)
    {s : List Char} {as : List α} {r : List Char}
    (h : (as, r) ∈ starP p s) : ∃ t, s = t ++ r :=
  starHelp_consumes hp s.length s as r h

theorem qualUnit_consumes : Consumes qualUnit := by
  intro s a r h
  unfold qualUnit at h
  simp only [List.mem_flatMap] at h
  obtain ⟨kw, _, h⟩ := h
  rw [mem_bindP] at h
  obtain ⟨u, r1, h1, h⟩ := h
  rw [mem_bindP] at h
  obtain ⟨ws, r2, h2, h⟩ := h
  rw [mem_pureP] at h
  cases h
  obtain rfl := mem_litP h1
  obtain ⟨rfl, -⟩ := mem_plusClass h2
  exact ⟨kw ++ ws, by simp⟩

theorem templUnit_consumes : Consumes templUnit := by
  intro s a r h
  unfold templUnit at h
  rw [mem_bindP] at h
  obtain ⟨ws, r1, h1, h⟩ := h
  rw [mem_bindP] at h
  obtain ⟨u, r2, h2, h⟩ := h
  rw [mem_bindP] at h
  obtain ⟨inner, r3, h3, h⟩ := h
  rw [mem_bindP] at h
  obtain ⟨u2, r4, h4, h⟩ := h
  rw [mem_pureP] at h
  cases h
  obtain ⟨rfl, -⟩ := mem_starClass h1
  obtain rfl := mem_charP h2
  obtain ⟨rfl, -⟩ := mem_starClass h3
  obtain rfl := mem_charP h4
  exact ⟨ws ++ '<' :: inner ++ [']'].tail ++ ['>'], by simp⟩

theorem ptrUnit_consumes : Consumes ptrUnit := by
  intro s a r h
  unfold ptrUnit at h
  rw [mem_bindP] at h
  obtain ⟨ws, r1, h1, h⟩ := h
  rw [mem_bindP] at h
  obtain ⟨u, r2, h2, h⟩ := h
  rw [mem_pureP] at h
  cases h
  obtain ⟨rfl, -⟩ := mem_starClass h1
  obtain rfl := mem_charP h2
  exact ⟨ws ++ ['*'], by simp⟩

/-- On a `bracketUnit` success: the consumed text equals the reported capture and
has the shape whitespace, `[`, remainder. -/
theorem bracketUnit_sound {s r v : List Char}
    (h : (v, r) ∈ bracketUnit s) :
    s = v ++ r ∧ ∃ ws rest, v = ws ++ '[' :: rest ∧ ws.all jsSpace = true := by
  unfold bracketUnit at h
  rw [mem_bindP] at h
  obtain ⟨ws, r1, h1, h⟩ := h
  rw [mem_bindP] at h
  obtain ⟨u, r2, h2, h⟩ := h
  rw [mem_bindP] at h
  obtain ⟨inner, r3, h3, h⟩ := h
  rw [mem_bindP] at h
  obtain ⟨u2, r4, h4, h⟩ := h
  rw [mem_pureP] at h
  cases h
  obtain ⟨rfl, hws⟩ := mem_starClass h1
  obtain rfl := mem_charP h2
  obtain ⟨rfl, -⟩ := mem_starClass h3
  obtain rfl := mem_charP h4
  exact ⟨by simp, ws, inner ++ [']'], by simp, hws⟩

/-- On an `initUnit` success: consumed text equals the capture and starts with `=`. -/
theorem initUnit_sound {s r v : List Char}
    (h : (v, r) ∈ initUnit s) :
    s = v ++ r ∧ ∃ body, v = '=' :: body := by
  unfold initUnit at h
  rw [mem_bindP] at h
  obtain ⟨u, r1, h1, h⟩ := h
  rw [mem_bindP] at h
  obtain ⟨body, r2, h2, h⟩ := h
  rw [mem_pureP] at h
  cases h
  obtain rfl := mem_charP h1
  obtain ⟨rfl, -, -⟩ := mem_plusClass h2
  exact ⟨rfl, body, rfl⟩

/-- On a `commentUnit` success: the consumed text is whitespace, `//`, anything. -/
theorem commentUnit_sound {s r v : List Char}
    (h : (v, r) ∈ commentUnit s) :
    ∃ cws rest, s = (cws ++ '/' :: '/' :: rest) ++ r ∧ cws.all jsSpace = true := by
  unfold commentUnit at h
  rw [mem_bindP] at h
  obtain ⟨cws, r1, h1, h⟩ := h
  rw [mem_bindP] at h
  obtain ⟨u, r2, h2, h⟩ := h
  rw [mem_bindP] at h
  obtain ⟨ws2, r3, h3, h⟩ := h
  rw [mem_bindP] at h
  obtain ⟨content, r4, h4, h⟩ := h
  rw [mem_pureP] at h
  cases h
  obtain ⟨rfl, hws⟩ := mem_starClass h1
  obtain rfl := mem_litP h2
  obtain ⟨rfl, -⟩ := mem_starClass h3
  obtain ⟨rfl, -⟩ := mem_starClass h4
  exact ⟨cws, ws2 ++ v, by simp, hws⟩

theorem head?_mem {α : Type} {l : List α} {a : α} (h : l.head? = some a) :
    a ∈ l := by
  cases l with
  | nil => simp at h
  | cons x xs => simp at h; simp [h]

/-! ## Soundness of the full `VARIABLE_DEFINITION_REGEX` match -/

/-- A successful match decomposes the line into the regex's sections:
leading material, mandatory whitespace, the exact identifier, the optional
bracket group, whitespace, the optional initializer, whitespace, `;`, the
optional `//` comment and trailing whitespace; and the type capture (group 1)
starts with a type-class character. -/
theorem varDefP_sound {w line : List Char} {m : VarDefMatch}
    (h : jsMatchVarDef w line = some m) :
    ∃ pre ws1 brr ws2 ini ws3 ctail ews,
      line = pre ++ ws1 ++ w ++ brr ++ ws2 ++ ini ++ ws3 ++ ';' :: (ctail ++ ews) ∧
      ws1 ≠ [] ∧ ws1.all jsSpace = true ∧
      (brr = [] ∨ ∃ bws brest, brr = bws ++ '[' :: brest ∧ bws.all jsSpace = true) ∧
      ws2.all jsSpace = true ∧
      (ini = [] ∨ ∃ body, ini = '=' :: body) ∧
      ws3.all jsSpace = true ∧
      ews.all jsSpace = true ∧
      (ctail = [] ∨ ∃ cws crest, ctail = cws ++ '/' :: '/' :: crest ∧ cws.all jsSpace = true) ∧
      (∃ d gr, m.g1 = d :: gr ∧ typeChar d = true) := by
  unfold jsMatchVarDef at h
  rw [Option.map_eq_some'] at h
  obtain ⟨⟨m0, rest⟩, hh, hm0⟩ := h
  simp only at hm0
  subst hm0
  have hmem := head?_mem hh
  unfold varDefP at hmem
  rw [mem_bindP] at hmem
  obtain ⟨t0, r0, hp0, hmem⟩ := hmem
  rw [mem_bindP] at hmem
  obtain ⟨qs, r1, hp1, hmem⟩ := hmem
  rw [mem_bindP] at hmem
  obtain ⟨t1, r2, hp2, hmem⟩ := hmem
  rw [mem_bindP] at hmem
  obtain ⟨tpl, r3, hp3, hmem⟩ := hmem
  rw [mem_bindP] at hmem
  obtain ⟨stars, r4, hp4, hmem⟩ := hmem
  rw [mem_bindP] at hmem
  obtain ⟨ws1, r5, hp5, hmem⟩ := hmem
  rw [mem_bindP] at hmem
  obtain ⟨u6, r6, hp6, hmem⟩ := hmem
  rw [mem_bindP] at hmem
  obtain ⟨g3v, r7, hp7, hmem⟩ := hmem
  rw [mem_bindP] at hmem
  obtain ⟨ws2, r8, hp8, hmem⟩ := hmem
  rw [mem_bindP] at hmem
  obtain ⟨iniv, r9, hp9, hmem⟩ := hmem
  rw [mem_bindP] at hmem
  obtain ⟨ws3, r10, hp10, hmem⟩ := hmem
  rw [mem_bindP] at hmem
  obtain ⟨u11, r11, hp11, hmem⟩ := hmem
  rw [mem_bindP] at hmem
  obtain ⟨g4v, r12, hp12, hmem⟩ := hmem
  rw [mem_bindP] at hmem
  obtain ⟨ews, r13, hp13, hmem⟩ := hmem
  rw [mem_bindP] at hmem
  obtain ⟨u14, r14, hp14, hmem⟩ := hmem
  rw [mem_pureP] at hmem
  injection hmem with hmval hmrest
  -- consumption facts for each stage
  obtain ⟨hl0, -⟩ := mem_starClass hp0
  obtain ⟨tq, hl1⟩ := starP_consumes qualUnit_consumes hp1
  obtain ⟨hl2, ht1all, ht1ne⟩ := mem_plusClass hp2
  have hl3 : ∃ ttpl, r2 = ttpl ++ r3 := by
    rcases mem_optP hp3 with heq | ⟨v, rr, heq, hv⟩
    · injection heq with he1 he2; exact ⟨[], by simp [he2]⟩
    · injection heq with he1 he2
      subst he2
      exact templUnit_consumes _ _ _ hv
  obtain ⟨ttpl, hl3⟩ := hl3
  obtain ⟨tst, hl4⟩ := starP_consumes ptrUnit_consumes hp4
  obtain ⟨hl5, hws1all, hws1ne⟩ := mem_plusClass hp5
  have hl6 := mem_litP hp6
  have hl7 : ∃ brr, r6 = brr ++ r7 ∧
      (brr = [] ∨ ∃ bws brest, brr = bws ++ '[' :: brest ∧ bws.all jsSpace = true) := by
    rcases mem_optP hp7 with heq | ⟨v, rr, heq, hv⟩
    · injection heq with he1 he2; exact ⟨[], by simp [he2], Or.inl rfl⟩
    · injection heq with he1 he2
      subst he2
      obtain ⟨hcons, hshape⟩ := bracketUnit_sound hv
      exact ⟨v, hcons, Or.inr hshape⟩
  obtain ⟨brr, hl7, hbrr⟩ := hl7
  obtain ⟨hl8, hws2all⟩ := mem_starClass hp8
  have hl9 : ∃ ini, r8 = ini ++ r9 ∧ (ini = [] ∨ ∃ body, ini = '=' :: body) := by
    rcases mem_optP hp9 with heq | ⟨v, rr, heq, hv⟩
    · injection heq with he1 he2; exact ⟨[], by simp [he2], Or.inl rfl⟩
    · injection heq with he1 he2
      subst he2
      obtain ⟨hcons, hshape⟩ := initUnit_sound hv
      exact ⟨v, hcons, Or.inr hshape⟩
  obtain ⟨ini, hl9, hini⟩ := hl9
  obtain ⟨hl10, hws3all⟩ := mem_starClass hp10
  have hl11 := mem_charP hp11
  have hl12 : ∃ ctail, r11 = ctail ++ r12 ∧
      (ctail = [] ∨ ∃ cws crest, ctail = cws ++ '/' :: '/' :: crest ∧ cws.all jsSpace = true) := by
    rcases mem_optP hp12 with heq | ⟨v, rr, heq, hv⟩
    · injection heq with he1 he2; exact ⟨[], by simp [he2], Or.inl rfl⟩
    · injection heq with he1 he2
      subst he2
      obtain ⟨cws, crest, hcons, hcall⟩ := commentUnit_sound hv
      exact ⟨cws ++ '/' :: '/' :: crest, hcons, Or.inr ⟨cws, crest, rfl, hcall⟩⟩
  obtain ⟨ctail, hl12, hctail⟩ := hl12
  obtain ⟨hl13, hewsall⟩ := mem_starClass hp13
  obtain ⟨hl14, -⟩ := mem_endP hp14
  subst hmval
  -- the type capture starts with a type-class character
  have hg1 : ∃ d gr,
      t1 ++ tpl.getD [] ++ stars.flatten = d :: gr ∧ typeChar d = true := by
    cases t1 with
    | nil => exact absurd rfl ht1ne
    | cons d gr' =>
      have hd : typeChar d = true := by
        have h2 := ht1all
        simp only [List.all_cons, Bool.and_eq_true] at h2
        exact h2.1
      exact ⟨d, gr' ++ (tpl.getD [] ++ stars.flatten), by simp, hd⟩
  -- assemble the decomposition
  subst hl14
  refine ⟨t0 ++ tq ++ t1 ++ ttpl ++ tst, ws1, brr, ws2, ini, ws3, ctail, ews,
    ?_, hws1ne, hws1all, hbrr, hws2all, hini, hws3all, hewsall, hctail, hg1⟩
  subst hl13
  subst hl12
  subst hl11
  subst hl10
  subst hl9
  subst hl8
  subst hl7
  subst hl6
  subst hl5
  subst hl4
  subst hl3
  subst hl2
  subst hl1
  subst hl0
  simp

/-! ## Character classes, trimming and `indexOf` -/

theorem typeChar_not_jsSpace {c : Char} (h : typeChar c = true) :
    jsSpace c = false := by
  by_contra hc
  rw [Bool.not_eq_false] at hc
  simp only [jsSpace, Bool.or_eq_true, decide_eq_true_eq] at hc
  rcases hc with ((((rfl | rfl) | rfl) | rfl) | rfl) | rfl <;>
    exact absurd h (by decide)

theorem jsSpace_not_wordChar {c : Char} (h : jsSpace c = true) :
    isWordChar c = false := by
  simp only [jsSpace, Bool.or_eq_true, decide_eq_true_eq] at h
  rcases h with ((((rfl | rfl) | rfl) | rfl) | rfl) | rfl <;> decide

theorem mem_dropWhile_of_not {p : Char → Bool} {c : Char} {l : List Char}
    (hc : c ∈ l) (hp : p c = false) : c ∈ l.dropWhile p := by
  induction l with
  | nil => simp at hc
  | cons a as ih =>
    by_cases ha : p a
    · rw [List.dropWhile_cons_of_pos ha]
      rcases List.mem_cons.mp hc with rfl | hmem
      · rw [hp] at ha; exact absurd ha (by simp)
      · exact ih hmem
    · rw [List.dropWhile_cons_of_neg ha]
      exact hc

theorem trimChars_ne_nil {l : List Char} {c : Char} (hc : c ∈ l)
    (hns : jsSpace c = false) : trimChars l ≠ [] := by
  intro h
  unfold trimChars at h
  rw [List.reverse_eq_nil_iff] at h
  rw [List.dropWhile_eq_nil_iff] at h
  have h1 : c ∈ l.dropWhile jsSpace := mem_dropWhile_of_not hc hns
  have h2 : c ∈ (l.dropWhile jsSpace).reverse := List.mem_reverse.mpr h1
  rw [h c h2] at hns
  exact absurd hns (by simp)

theorem idxSearch_sound {pat : List Char} :
    ∀ {s : List Char} {i j : Nat}, idxSearch pat s i = some j →
      ∃ k, j = i + k ∧ listStartsWith pat (s.drop k) = true := by
  intro s
  induction s with
  | nil =>
    intro i j h
    unfold idxSearch at h
    by_cases hp : listStartsWith pat [] = true
    · rw [if_pos hp] at h
      injection h with hij
      exact ⟨0, by omega, by simpa using hp⟩
    · rw [if_neg hp] at h
      simp at h
  | cons c cs ih =>
    intro i j h
    unfold idxSearch at h
    by_cases hp : listStartsWith pat (c :: cs) = true
    · rw [if_pos hp] at h
      injection h with hij
      exact ⟨0, by omega, by simpa using hp⟩
    · rw [if_neg hp] at h
      obtain ⟨k, hk, hsw⟩ := ih h
      exact ⟨k + 1, by omega, by simpa using hsw⟩

theorem jsIndexOfFromNat_sound {s pat : List Char} {start j : Nat}
    (h : jsIndexOfFromNat s pat start = some j) :
    (s.drop j).take pat.length = pat := by
  unfold jsIndexOfFromNat at h
  obtain ⟨k, rfl, hsw⟩ := idxSearch_sound h
  rw [List.drop_drop] at hsw
  obtain ⟨r, hr⟩ := listStartsWith_iff.mp hsw
  rw [hr]
  exact List.take_left pat r

/-! ## Soundness of one loop iteration of `findDefinitionInDocument` -/

/-- When a line yields a hit, the column range denotes exactly the searched
word, the type string is nonempty, and the line terminates in `;` followed
only by whitespace or a `//` comment. -/
theorem matchLine_sound {w line : List Char} {h : LineHit}
    (hm : matchLine w line = some h) :
    h.colEnd = h.colStart + w.length ∧
    (line.drop h.colStart).take w.length = w ∧
    h.varType ≠ [] ∧
    ∃ pre tail ws rest, line = pre ++ ';' :: tail ∧ tail = ws ++ rest ∧
      ws.all jsSpace = true ∧ (rest = [] ∨ rest.take 2 = ['/', '/']) := by
  unfold matchLine at hm
  cases hjm : jsMatchVarDef w line with
  | none => rw [hjm] at hm; simp at hm
  | some m =>
    rw [hjm] at hm
    simp only at hm
    obtain ⟨pre, ws1, brr, ws2, ini, ws3, ctail, ews, hline, hws1ne, hws1all,
      hbrr, hws2all, hini, hws3all, hewsall, hctail, d, gr, hg1, hd⟩ :=
      varDefP_sound hjm
    split at hm
    · exact absurd hm (by simp)
    case _ ns heq =>
      injection hm with hval
      subst hval
      refine ⟨rfl, jsIndexOfFromNat_sound heq, ?_, ?_⟩
      · have htr : trimChars m.g1 ≠ [] := by
          apply trimChars_ne_nil (c := d)
          · rw [hg1]; simp
          · exact typeChar_not_jsSpace hd
        simp only [ne_eq, List.append_eq_nil, not_and]
        intro hcontra
        exact absurd hcontra htr
      · refine ⟨pre ++ ws1 ++ w ++ brr ++ ws2 ++ ini ++ ws3, ctail ++ ews, ?_⟩
        rcases hctail with rfl | ⟨cws, crest, rfl, hcall⟩
        · exact ⟨ews, [], by simpa using hline, by simp, hewsall, Or.inl rfl⟩
        · exact ⟨cws, '/' :: '/' :: (crest ++ ews), by simpa using hline,
            by simp, hcall, Or.inr rfl⟩

/-! ## The scan loop -/

/-- The forward loop returns the hit of the first matching line at or after
`startLine` (within the `endLine` bound), given adequate fuel. -/
theorem findDefFrom_first {doc : List (List Char)} {w : List Char}
    {endLine j : Nat} {hit : LineHit}
    (hm : matchLine w (lineAtD doc j) = some hit) (hje : j ≤ endLine) :
    ∀ fuel startLine, endLine + 1 - startLine ≤ fuel → startLine ≤ j →
      (∀ i, startLine ≤ i → i < j → matchLine w (lineAtD doc i) = none) →
      findDefFrom doc w false endLine startLine fuel = some ⟨j, hit⟩ := by
  intro fuel
  induction fuel with
  | zero =>
    intro s hn hsj hprev
    omega
  | succ n ih =>
    intro s hn hsj hprev
    by_cases hs : s = j
    · subst hs
      rw [findDefFrom]
      rw [if_neg (by omega)]
      simp [hm]
    · have hslt : s < j := by omega
      rw [findDefFrom]
      rw [if_neg (by omega)]
      rw [hprev s (le_refl s) hslt]
      simp only [Bool.false_eq_true, if_false]
      exact ih (s + 1) (by omega) (by omega) (fun i h1 h2 => hprev i (by omega) h2)

/-- If no line in the scanned range matches, the loop returns nothing. -/
theorem findDefFrom_none {doc : List (List Char)} {w : List Char}
    {cancelled : Bool} {endLine : Nat} :
    ∀ fuel startLine,
      (∀ i, startLine ≤ i → i ≤ endLine → matchLine w (lineAtD doc i) = none) →
      findDefFrom doc w cancelled endLine startLine fuel = none := by
  intro fuel
  induction fuel with
  | zero => intro s hall; rfl
  | succ n ih =>
    intro s hall
    rw [findDefFrom]
    by_cases hlt : endLine < s
    · rw [if_pos hlt]
    · rw [if_neg hlt]
      by_cases hc : cancelled = true
      · rw [if_pos hc]
      · rw [if_neg hc]
        rw [hall s (le_refl s) (by omega)]
        exact ih (s + 1) (fun i h1 h2 => hall i (by omega) h2)

/-- The loop's result depends only on the lines of the scanned range. -/
theorem findDefFrom_agree {doc doc' : List (List Char)} {w : List Char}
    {cancelled : Bool} {endLine : Nat} :
    ∀ fuel startLine,
      (∀ i, startLine ≤ i → i ≤ endLine → lineAtD doc i = lineAtD doc' i) →
      findDefFrom doc w cancelled endLine startLine fuel =
        findDefFrom doc' w cancelled endLine startLine fuel := by
  intro fuel
  induction fuel with
  | zero => intro s hall; rfl
  | succ n ih =>
    intro s hall
    by_cases hlt : endLine < s
    · have h1 : findDefFrom doc w cancelled endLine s (n + 1) = none := by
        rw [findDefFrom]; rw [if_pos hlt]
      have h2 : findDefFrom doc' w cancelled endLine s (n + 1) = none := by
        rw [findDefFrom]; rw [if_pos hlt]
      rw [h1, h2]
    · by_cases hc : cancelled = true
      · have h1 : findDefFrom doc w cancelled endLine s (n + 1) = none := by
          rw [findDefFrom]; rw [if_neg hlt, if_pos hc]
        have h2 : findDefFrom doc' w cancelled endLine s (n + 1) = none := by
          rw [findDefFrom]; rw [if_neg hlt, if_pos hc]
        rw [h1, h2]
      · have hml := hall s (le_refl s) (by omega)
        cases hml2 : matchLine w (lineAtD doc' s) with
        | some hit =>
          have h1 : findDefFrom doc w cancelled endLine s (n + 1) =
              some ⟨s, hit⟩ := by
            rw [findDefFrom]; rw [if_neg hlt, if_neg hc, hml, hml2]
          have h2 : findDefFrom doc' w cancelled endLine s (n + 1) =
              some ⟨s, hit⟩ := by
            rw [findDefFrom]; rw [if_neg hlt, if_neg hc, hml2]
          rw [h1, h2]
        | none =>
          have h1 : findDefFrom doc w cancelled endLine s (n + 1) =
              findDefFrom doc w cancelled endLine (s + 1) n := by
            rw [findDefFrom]; rw [if_neg hlt, if_neg hc, hml, hml2]
          have h2 : findDefFrom doc' w cancelled endLine s (n + 1) =
              findDefFrom doc' w cancelled endLine (s + 1) n := by
            rw [findDefFrom]; rw [if_neg hlt, if_neg hc, hml2]
          rw [h1, h2]
          exact ih (s + 1) (fun i h1 h2 => hall i (by omega) h2)

/-- If no scanned line starts a block comment, the upward comment walk
returns nothing. -/
theorem scanForStart_none {doc : List (List Char)} {cancelled : Bool} :
    ∀ r cur acc,
      (∀ k, k < r → blockStartTest (trimChars (lineAtD doc (cur - k))) = false) →
      scanForStart doc cancelled cur r acc = none := by
  intro r
  induction r with
  | zero => intro cur acc h; rfl
  | succ n ih =>
    intro cur acc h
    unfold scanForStart
    by_cases hc : cancelled = true
    · rw [if_pos hc]
    · rw [if_neg hc]
      have h0 := h 0 (by omega)
      rw [Nat.sub_zero] at h0
      simp only [h0, Bool.false_eq_true, if_false]
      by_cases hcur : cur = 0
      · rw [if_pos hcur]
      · rw [if_neg hcur]
        apply ih
        intro k hk
        have heq : cur - 1 - k = cur - (k + 1) := by omega
        rw [heq]
        exact h (k + 1) (by omega)

/-- A successful scan result comes from a matching line inside the scanned
range. -/
theorem findDefFrom_sound {doc : List (List Char)} {w : List Char}
    {cancelled : Bool} {endLine : Nat} :
    ∀ fuel startLine r,
      findDefFrom doc w cancelled endLine startLine fuel = some r →
      matchLine w (lineAtD doc r.lineNum) = some r.hit ∧
      startLine ≤ r.lineNum ∧ r.lineNum ≤ endLine := by
  intro fuel
  induction fuel with
  | zero =>
    intro s r h
    exact absurd h (by simp [findDefFrom])
  | succ n ih =>
    intro s r h
    rw [findDefFrom] at h
    by_cases hlt : endLine < s
    · rw [if_pos hlt] at h; exact absurd h (by simp)
    · rw [if_neg hlt] at h
      by_cases hc : cancelled = true
      · rw [if_pos hc] at h; exact absurd h (by simp)
      · rw [if_neg hc] at h
        cases hml : matchLine w (lineAtD doc s) with
        | some hit =>
          rw [hml] at h
          injection h with hr
          subst hr
          exact ⟨hml, le_refl s, by show s ≤ endLine; omega⟩
        | none =>
          rw [hml] at h
          obtain ⟨h1, h2, h3⟩ := ih (s + 1) r h
          exact ⟨h1, by omega, h3⟩

/-- Wrapper of the previous lemma at the `findDefinitionInDocument` level. -/
theorem findDefinitionInDocument_sound {doc : List (List Char)} {w : List Char}
    {cancelled : Bool} {startLine endLine : Nat} {r : DefInfo}
    (h : findDefinitionInDocument doc w cancelled startLine endLine = some r) :
    matchLine w (lineAtD doc r.lineNum) = some r.hit ∧
    startLine ≤ r.lineNum ∧ r.lineNum ≤ endLine :=
  findDefFrom_sound (endLine + 1 - startLine) startLine r h

/-! ## The candidate loop -/

theorem searchCandidates_cancelled {env : Env} {w : List Char}
    {l : List (List Char)} : searchCandidates env w true l = none := by
  cases l <;> simp [searchCandidates]

/-- With an uncancelled token, the candidate loop is exactly "the first
candidate that opens and contains a match wins". -/
theorem searchCandidates_eq_findSome (env : Env) (w : List Char) :
    ∀ cands, searchCandidates env w false cands =
      cands.findSome? (openAndMatch env w) := by
  intro cands
  induction cands with
  | nil => rfl
  | cons f rest ih =>
    rw [searchCandidates, List.findSome?_cons]
    simp only [Bool.false_eq_true, if_false]
    cases hod : env.openDoc f with
    | error e =>
      have hoam : openAndMatch env w f = none := by
        unfold openAndMatch; rw [hod]
      simp only [hod, hoam]
      exact ih
    | ok hdoc =>
      cases hfd : findDefinitionInDocument hdoc w false 0 (hdoc.length - 1) with
      | some d =>
        have hoam : openAndMatch env w f = some (f, hdoc, d) := by
          unfold openAndMatch; rw [hod]; simp only; rw [hfd]
        simp only [hod, hfd, hoam]
      | none =>
        have hoam : openAndMatch env w f = none := by
          unfold openAndMatch; rw [hod]; simp only; rw [hfd]
        simp only [hod, hfd, hoam]
        exact ih

/-- An unopenable candidate is transparent to the loop: removing it from the
candidate list (wherever it sits) does not change the result. -/
theorem searchCandidates_skip {env : Env} {w : List Char} {cancelled : Bool}
    {f msg : List Char} (hf : env.openDoc f = .error msg) :
    ∀ pre rest, searchCandidates env w cancelled (pre ++ f :: rest) =
      searchCandidates env w cancelled (pre ++ rest) := by
  intro pre
  induction pre with
  | nil =>
    intro rest
    simp only [List.nil_append]
    by_cases hc : cancelled = true
    · subst hc
      rw [searchCandidates_cancelled, searchCandidates_cancelled]
    · rw [Bool.not_eq_true] at hc
      subst hc
      rw [searchCandidates]
      simp only [Bool.false_eq_true, if_false]
      rw [hf]
  | cons p pre' ih =>
    intro rest
    simp only [List.cons_append]
    by_cases hc : cancelled = true
    · subst hc
      rw [searchCandidates_cancelled, searchCandidates_cancelled]
    · rw [Bool.not_eq_true] at hc
      subst hc
      rw [searchCandidates]
      conv_rhs => rw [searchCandidates]
      simp only [Bool.false_eq_true, if_false]
      cases hod : env.openDoc p with
      | error e => exact ih rest
      | ok hdoc =>
        simp only
        cases hfd : findDefinitionInDocument hdoc w false 0 (hdoc.length - 1) with
        | some d => rfl
        | none => exact ih rest

/-! ## Candidate-list construction -/

theorem foldl_append_flatMap {α β : Type} (g : α → List β) :
    ∀ (l : List α) (acc : List β),
      l.foldl (fun a x => a ++ g x) acc = acc ++ l.flatMap g := by
  intro l
  induction l with
  | nil => intro acc; simp
  | cons x xs ih => intro acc; simp [ih, List.append_assoc]

theorem foldl_dedup :
    ∀ (hs seen : List (List Char)),
      hs.foldl (fun acc h => if acc.contains h then acc else acc ++ [h]) seen =
        seen ++ dedupAppend seen hs := by
  intro hs
  induction hs with
  | nil => intro seen; simp [dedupAppend]
  | cons h t ih =>
    intro seen
    rw [List.foldl_cons]
    unfold dedupAppend
    by_cases hc : seen.contains h = true
    · rw [if_pos hc, if_pos hc, ih]
    · rw [if_neg hc, if_neg hc, ih]
      simp [List.append_assoc]

/-- The code's growing-array candidate construction equals the spec-side
description: include-name query results first, then the header sweep with
already-present paths dropped. -/
theorem findPotentialHeaderFiles_eq_spec (env : Env) (doc : List (List Char)) :
    findPotentialHeaderFiles env doc = candidateListSpec env doc := by
  unfold findPotentialHeaderFiles candidateListSpec
  cases henv : env.hasWorkspaceFolder with
  | false => simp
  | true =>
    simp only [Bool.not_true, Bool.false_eq_true, if_false]
    rw [foldl_append_flatMap, foldl_dedup]
    simp

theorem findSome?_sound {α β : Type} {l : List α} {f : α → Option β} {b : β}
    (h : l.findSome? f = some b) : ∃ a ∈ l, f a = some b := by
  induction l with
  | nil => simp at h
  | cons x xs ih =>
    rw [List.findSome?_cons] at h
    cases hx : f x with
    | some v =>
      rw [hx] at h
      injection h with hv
      subst hv
      exact ⟨x, by simp, hx⟩
    | none =>
      rw [hx] at h
      obtain ⟨a, ha, hfa⟩ := ih h
      exact ⟨a, by simp [ha], hfa⟩

/-! ## Claim theorems -/

/-- C1 (counterexample): on the document `int x;` / `float x;` / `x = 1;`
with the hover at line 2, the bounded scan (window lines 0–2) returns the
declaration at line 0 even though line 1 also matches and is strictly closer
to the hover line — so the scan does not return the nearest preceding match. -/
theorem c1_counterexample :
    ((findDefinitionInDocument
        ["int x;".toList, "float x;".toList, "x = 1;".toList]
        "x".toList false 0 2).map DefInfo.lineNum = some 0) ∧
    matchLine "x".toList
      (lineAtD ["int x;".toList, "float x;".toList, "x = 1;".toList] 1) ≠ none ∧
    (0 : Nat) ≠ 1 := by
  decide

/-- C1 (amended): in both modes `findDefinitionInDocument` returns the hit of
the first matching line encountered scanning forward from `startLine` — in
bounded-upward-scan mode this is the earliest (farthest preceding) match of
the window, not the nearest preceding one; in full-document mode it is the
first match top to bottom. -/
theorem c1_scan_returns_first_match (doc : List (List Char)) (w : List Char)
    (startLine endLine j : Nat) (hit : LineHit)
    (hsj : startLine ≤ j) (hje : j ≤ endLine)
    (hm : matchLine w (lineAtD doc j) = some hit)
    (hfirst : ∀ i, startLine ≤ i → i < j → matchLine w (lineAtD doc i) = none) :
    findDefinitionInDocument doc w false startLine endLine = some ⟨j, hit⟩ :=
  findDefFrom_first hm hje (endLine + 1 - startLine) startLine (by omega) hsj hfirst

theorem c1_witness :
    findDefinitionInDocument ["int x;".toList, "float x;".toList]
      "x".toList false 0 1 = some ⟨0, ⟨"int".toList, none, 4, 5⟩⟩ :=
  c1_scan_returns_first_match _ _ 0 1 0 _ (by omega) (by omega) (by decide)
    (fun i h1 h2 => absurd h2 (by omega))

/-- C2 (counterexample): the line `a<b yx = 1> x;` matches the Declaration
Matcher both with identifier `x` (via the template content) and with the
proper superstring `yx` (via backtracking into the template/initializer), so
re-running the matcher with an identifier other than the matched one does not
always return none. -/
theorem c2_counterexample :
    jsMatchVarDef "x".toList "a<b yx = 1> x;".toList ≠ none ∧
    jsMatchVarDef "yx".toList "a<b yx = 1> x;".toList ≠ none ∧
    "yx".toList = 'y' :: "x".toList := by
  decide

/-- C2 (amended): the matcher only ever matches the queried identifier as a
whole word — any successful match splits the line as
`pre ++ whitespace ++ identifier ++ post` where the whitespace is nonempty
and `post` begins with a non-word character — but a line can also match a
different identifier at a different position, so the matcher need not return
none for other identifiers. -/
theorem c2_whole_word (w line : List Char) (m : VarDefMatch)
    (h : jsMatchVarDef w line = some m) :
    ∃ pre ws1 post, line = pre ++ ws1 ++ w ++ post ∧
      ws1 ≠ [] ∧ ws1.all jsSpace = true ∧
      ∃ d rest, post = d :: rest ∧ isWordChar d = false := by
  obtain ⟨pre, ws1, brr, ws2, ini, ws3, ctail, ews, hline, hws1ne, hws1all,
    hbrr, hws2all, hini, hws3all, hewsall, hctail, -⟩ := varDefP_sound h
  refine ⟨pre, ws1, brr ++ ws2 ++ ini ++ ws3 ++ ';' :: (ctail ++ ews),
    by simpa [List.append_assoc] using hline, hws1ne, hws1all, ?_⟩
  rcases hbrr with rfl | ⟨bws, brest, rfl, hbws⟩
  · simp only [List.nil_append]
    cases ws2 with
    | cons c cs =>
      have hc : jsSpace c = true := by
        have h2 := hws2all
        simp only [List.all_cons, Bool.and_eq_true] at h2
        exact h2.1
      exact ⟨c, cs ++ ini ++ ws3 ++ ';' :: (ctail ++ ews),
        by simp [List.append_assoc], jsSpace_not_wordChar hc⟩
    | nil =>
      simp only [List.nil_append]
      rcases hini with rfl | ⟨body, rfl⟩
      · simp only [List.nil_append]
        cases ws3 with
        | cons c cs =>
          have hc : jsSpace c = true := by
            have h2 := hws3all
            simp only [List.all_cons, Bool.and_eq_true] at h2
            exact h2.1
          exact ⟨c, cs ++ ';' :: (ctail ++ ews), by simp,
            jsSpace_not_wordChar hc⟩
        | nil => exact ⟨';', ctail ++ ews, by simp, by decide⟩
      · exact ⟨'=', body ++ ws3 ++ ';' :: (ctail ++ ews),
          by simp [List.append_assoc], by decide⟩
  · cases bws with
    | nil =>
      exact ⟨'[', brest ++ ws2 ++ ini ++ ws3 ++ ';' :: (ctail ++ ews),
        by simp [List.append_assoc], by decide⟩
    | cons c cs =>
      have hc : jsSpace c = true := by
        have h2 := hbws
        simp only [List.all_cons, Bool.and_eq_true] at h2
        exact h2.1
      exact ⟨c, cs ++ '[' :: brest ++ ws2 ++ ini ++ ws3 ++ ';' :: (ctail ++ ews),
        by simp [List.append_assoc], jsSpace_not_wordChar hc⟩

theorem c2_witness :
    ∃ pre ws1 post, "int x;".toList = pre ++ ws1 ++ "x".toList ++ post ∧
      ws1 ≠ [] ∧ ws1.all jsSpace = true ∧
      ∃ d rest, post = d :: rest ∧ isWordChar d = false :=
  c2_whole_word "x".toList "int x;".toList ⟨"int".toList, none, none⟩ (by decide)

/-- C3: the bounded upward scan reads only lines `hoverLine - 100` through
`hoverLine`: (a) two documents that agree on that window give the same
result, and (b) if no line of the window matches — in particular when the
only declaration sits exactly 101 lines above the hover line — the scan
returns none. -/
theorem c3_window_bound :
    (∀ (doc doc' : List (List Char)) (w : List Char) (cancelled : Bool)
        (hoverLine : Nat),
      (∀ j, hoverLine - MAX_LINES_TO_SCAN_UP ≤ j → j ≤ hoverLine →
        lineAtD doc j = lineAtD doc' j) →
      findDefinitionInDocument doc w cancelled
          (hoverLine - MAX_LINES_TO_SCAN_UP) hoverLine =
        findDefinitionInDocument doc' w cancelled
          (hoverLine - MAX_LINES_TO_SCAN_UP) hoverLine) ∧
    (∀ (doc : List (List Char)) (w : List Char) (cancelled : Bool)
        (hoverLine : Nat),
      (∀ j, hoverLine - MAX_LINES_TO_SCAN_UP ≤ j → j ≤ hoverLine →
        matchLine w (lineAtD doc j) = none) →
      findDefinitionInDocument doc w cancelled
        (hoverLine - MAX_LINES_TO_SCAN_UP) hoverLine = none) := by
  constructor
  · intro doc doc' w c hov hagree
    exact findDefFrom_agree (hov + 1 - (hov - MAX_LINES_TO_SCAN_UP)) _ hagree
  · intro doc w c hov hnone
    exact findDefFrom_none (hov + 1 - (hov - MAX_LINES_TO_SCAN_UP)) _ hnone

theorem c3_witness :
    (findDefinitionInDocument [[], "int a;".toList, "b c;".toList]
        "c".toList false 0 2 =
      findDefinitionInDocument
        [[], "int a;".toList, "b c;".toList, "other".toList]
        "c".toList false 0 2) ∧
    findDefinitionInDocument ("long y;".toList :: List.replicate 101 [])
      "y".toList false 1 101 = none := by
  constructor
  · exact c3_window_bound.1 _ _ "c".toList false 2
      (by intro j h1 h2; interval_cases j <;> rfl)
  · refine c3_window_bound.2 _ "y".toList false 101 ?_
    intro j h1 h2
    have h1n : 1 ≤ j := h1
    have hline : lineAtD ("long y;".toList :: List.replicate 101 []) j = [] := by
      unfold lineAtD
      cases j with
      | zero => omega
      | succ jj =>
        rw [List.getElem?_cons_succ, List.getElem?_replicate]
        by_cases hjj : jj < 101
        · rw [if_pos hjj]; rfl
        · rw [if_neg hjj]; rfl
    rw [hline]
    decide

/-- C4: a declaration whose immediately preceding line (after trimming)
itself passes the relaxed declaration-shape test is treated as a
continuation, and the Comment Extractor attaches no block comment to it,
whatever sits above the sibling. -/
theorem c4_continuation_no_comment (doc : List (List Char)) (defLine : Nat)
    (cancelled : Bool) (hpos : 0 < defLine)
    (hlikely : likelyDefTest (trimChars (lineAtD doc (defLine - 1))) = true) :
    findBlockComment doc defLine cancelled = none := by
  unfold findBlockComment
  rw [if_pos hpos, hlikely]
  simp

theorem c4_witness :
    findBlockComment
      ["/* group */".toList, "int a;".toList, "int b;".toList] 2 false =
      none :=
  c4_continuation_no_comment _ 2 false (by omega) (by decide)

/-- C5: cleaning the block comment `/** foo` / ` * bar` / ` */` yields
exactly `foo\nbar`. -/
theorem c5_clean_roundtrip :
    cleanBlockComment ["/** foo".toList, " * bar".toList, " */".toList] =
      "foo\n".toList ++ "bar".toList := by
  decide

/-- C7: an unopenable candidate is skipped and the cross-file search
continues with the remaining candidates unchanged — the failure never
escapes the loop. -/
theorem c7_open_failure_skipped (env : Env) (w : List Char) (cancelled : Bool)
    (f msg : List Char) (pre rest : List (List Char))
    (hf : env.openDoc f = .error msg) :
    searchCandidates env w cancelled (pre ++ f :: rest) =
      searchCandidates env w cancelled (pre ++ rest) :=
  searchCandidates_skip hf pre rest

theorem c7_witness :
    (searchCandidates envC7 "z".toList false
        ["bad.h".toList, "good.h".toList] =
      searchCandidates envC7 "z".toList false ["good.h".toList]) ∧
    searchCandidates envC7 "z".toList false ["good.h".toList] =
      some ("good.h".toList, ["int z;".toList],
        ⟨0, ⟨"int".toList, none, 4, 5⟩⟩) := by
  constructor
  · exact c7_open_failure_skipped envC7 "z".toList false "bad.h".toList
      "io".toList [] ["good.h".toList] rfl
  · decide

/-- C8: when the line above a first-in-sequence declaration ends with `*/`
but none of the 50 scanned lines starts with `/*`, the Comment Extractor
returns none (the truncated comment is treated as absent). -/
theorem c8_cap_exhausted (doc : List (List Char)) (defLine : Nat)
    (cancelled : Bool) (hpos : 0 < defLine)
    (hnotlikely : likelyDefTest (trimChars (lineAtD doc (defLine - 1))) = false)
    (hend : blockEndTest (trimChars (lineAtD doc (defLine - 1))) = true)
    (hnostart : ∀ k, k < MAX_BLOCK_COMMENT_LINES →
      blockStartTest (trimChars (lineAtD doc (defLine - 1 - k))) = false) :
    findBlockComment doc defLine cancelled = none := by
  unfold findBlockComment
  rw [if_pos hpos, hnotlikely]
  simp only [Bool.not_false, Bool.not_true, Bool.false_or, decide_eq_true_eq]
  rw [if_neg (by omega : ¬ defLine = 0)]
  rw [if_pos hend]
  exact scanForStart_none MAX_BLOCK_COMMENT_LINES (defLine - 1) [] hnostart

theorem c8_witness :
    findBlockComment
      (List.replicate 55 "x */".toList ++ ["int x;".toList]) 55 false =
      none :=
  c8_cap_exhausted _ 55 false (by omega) (by decide) (by decide) (by decide)

/-- C9: whenever the scan returns a match, the returned column range has the
searched word's length and denotes a substring of the matched line equal to
that word, and the matched line contains a `;` after which there is only
whitespace or a `//` comment. -/
theorem c9_match_invariants (doc : List (List Char)) (w : List Char)
    (cancelled : Bool) (startLine endLine : Nat) (r : DefInfo)
    (h : findDefinitionInDocument doc w cancelled startLine endLine = some r) :
    r.hit.colEnd = r.hit.colStart + w.length ∧
    ((lineAtD doc r.lineNum).drop r.hit.colStart).take w.length = w ∧
    ∃ pre tail ws rest, lineAtD doc r.lineNum = pre ++ ';' :: tail ∧
      tail = ws ++ rest ∧ ws.all jsSpace = true ∧
      (rest = [] ∨ rest.take 2 = ['/', '/']) := by
  obtain ⟨hml, -, -⟩ := findDefinitionInDocument_sound h
  obtain ⟨h1, h2, -, h4⟩ := matchLine_sound hml
  exact ⟨h1, h2, h4⟩

theorem c9_witness :
    (5 : Nat) = 4 + ("x".toList).length ∧
    ((lineAtD ["int x; // hi".toList] 0).drop 4).take ("x".toList).length =
      "x".toList ∧
    (∃ pre tail ws rest, lineAtD ["int x; // hi".toList] 0 =
        pre ++ ';' :: tail ∧ tail = ws ++ rest ∧ ws.all jsSpace = true ∧
        (rest = [] ∨ rest.take 2 = ['/', '/'])) :=
  c9_match_invariants ["int x; // hi".toList] "x".toList false 0 0
    ⟨0, ⟨"int".toList, some "hi".toList, 4, 5⟩⟩ (by decide)

/-- C10: a hovered word that is empty or consists only of decimal digits is
rejected at the top of `provideHover`, which returns nothing. -/
theorem c10_numeric_hover_rejected (env : Env) (doc : List (List Char))
    (posLine : Nat) (cancelled : Bool) (s e : Nat)
    (hrange : env.wordRangeAt posLine = some (s, e))
    (hdigits : (((lineAtD doc posLine).drop s).take (e - s)).isEmpty = true ∨
      (((lineAtD doc posLine).drop s).take (e - s)).all Char.isDigit = true) :
    provideHover env doc posLine cancelled = none := by
  unfold provideHover
  rw [hrange]
  rcases hdigits with h | h
  · simp [h]
  · simp [h]

theorem c10_witness :
    provideHover envC10 ["42 + 1;".toList] 0 false = none :=
  c10_numeric_hover_rejected envC10 _ 0 false 0 2 (by decide)
    (Or.inr (by decide))

/-- C6: when the local scan finds nothing, the candidate list is exactly the
spec's construction — for each include's base filename the capped,
vendor-excluded name-query results, then the capped vendor-excluded header
sweep with already-present paths dropped — the candidates are probed in that
order with the first open-and-matching one winning, and the hover result is
assembled from that winning candidate. -/
theorem c6_cross_file_resolution (env : Env) (doc : List (List Char))
    (posLine : Nat) (s e : Nat) (w : List Char)
    (hrange : env.wordRangeAt posLine = some (s, e))
    (hw : w = ((lineAtD doc posLine).drop s).take (e - s))
    (hne : w.isEmpty = false)
    (hnd : w.all Char.isDigit = false)
    (hlocal : findDefinitionInDocument doc w false
      (posLine - MAX_LINES_TO_SCAN_UP) posLine = none) :
    findPotentialHeaderFiles env doc = candidateListSpec env doc ∧
    searchCandidates env w false (findPotentialHeaderFiles env doc) =
      (candidateListSpec env doc).findSome? (openAndMatch env w) ∧
    (∀ f hd d, (candidateListSpec env doc).findSome? (openAndMatch env w) =
        some (f, hd, d) →
      provideHover env doc posLine false = some
        ⟨(if f ≠ env.activePath then some f else none),
         (match findBlockComment hd d.lineNum false with
          | some c => if c.isEmpty then none else some c
          | none => none),
         d.hit.varType,
         (match d.hit.lineComment with
          | some c => if c.isEmpty then none else some c
          | none => none),
         d.lineNum, d.hit.colStart, d.hit.colEnd⟩) ∧
    ((candidateListSpec env doc).findSome? (openAndMatch env w) = none →
      provideHover env doc posLine false = none) := by
  subst hw
  have hcands := findPotentialHeaderFiles_eq_spec env doc
  have hsearch : searchCandidates env
      (((lineAtD doc posLine).drop s).take (e - s)) false
      (findPotentialHeaderFiles env doc) =
      (candidateListSpec env doc).findSome?
        (openAndMatch env (((lineAtD doc posLine).drop s).take (e - s))) := by
    rw [hcands]
    exact searchCandidates_eq_findSome env _ _
  refine ⟨hcands, hsearch, ?_, ?_⟩
  · intro f hd d hfound
    obtain ⟨x, hxmem, hx⟩ := findSome?_sound hfound
    have hpair : findDefinitionInDocument hd
        (((lineAtD doc posLine).drop s).take (e - s)) false 0 (hd.length - 1) =
        some d ∧ f = x := by
      unfold openAndMatch at hx
      cases hod : env.openDoc x with
      | error msg => rw [hod] at hx; simp at hx
      | ok dd =>
        rw [hod] at hx
        simp only at hx
        cases hfd2 : findDefinitionInDocument dd
            (((lineAtD doc posLine).drop s).take (e - s)) false 0
            (dd.length - 1) with
        | none => rw [hfd2] at hx; simp at hx
        | some d2 =>
          rw [hfd2] at hx
          injection hx with hx2
          injection hx2 with hxa hxb
          injection hxb with hxc hxd
          subst hxa; subst hxc; subst hxd
          exact ⟨hfd2, rfl⟩
    obtain ⟨hfd, hfx⟩ := hpair
    have hvt : d.hit.varType.isEmpty = false := by
      obtain ⟨hml, -, -⟩ := findDefinitionInDocument_sound hfd
      obtain ⟨-, -, h3, -⟩ := matchLine_sound hml
      cases hv : d.hit.varType with
      | nil => exact absurd hv h3
      | cons a as => rfl
    unfold provideHover
    simp only [hrange, hne, hnd, Bool.or_false, Bool.false_eq_true, if_false,
      hlocal, hsearch, hfound, hvt, Bool.not_false, Bool.or_true,
      Bool.or_false, if_true]
  · intro hnone2
    unfold provideHover
    simp only [hrange, hne, hnd, Bool.or_false, Bool.false_eq_true, if_false,
      hlocal, hsearch, hnone2]

theorem c6_witness :
    provideHover envC6 docC6 1 false = some
      ⟨some "inc/foo.h".toList, some "doc".toList, "int".toList,
       some "note".toList, 1, 4, 5⟩ := by
  have h := (c6_cross_file_resolution envC6 docC6 1 4 5 "y".toList
    (by decide) (by decide) (by decide) (by decide) (by decide)).2.2.1
  have h2 := h "inc/foo.h".toList
    ["/* doc */".toList, "int y; // note".toList]
    ⟨1, ⟨"int".toList, some "note".toList, 4, 5⟩⟩ (by decide)
  rw [h2]
  decide

end HoverDocs
